import Mathlib

/-!
Shallow embedding of `useValidation` from `src/index.ts`.

The composable keeps a reactive `issues` object (created as `reactive({})`), a
`clearIssues` helper that deletes every top-level key, an async `validate` that
awaits the schema validator, clears the tree, and then folds the reported
issues into a nested structure, and a `watch` callback that re-runs `validate`
only while `Object.keys(issues).length` is non-zero.

Values stored in the tree are JavaScript values: plain objects (insertion
ordered string-keyed fields) or arrays of messages.  A JavaScript array can
additionally carry named (non-index) properties, which matters when the walk
descends into a node that already holds an array; the embedding keeps those
named properties in a separate field list.  A property read (`??=` reads
before deciding to assign) that misses the object's own fields continues on
the prototype chain: on a plain object the string keys of `Object.prototype`
(`toString`, `constructor`, `hasOwnProperty`, ...) yield inherited, non-nullish
values, which `??=` keeps; such an inherited value is represented by the
opaque `builtin` node.  What the walk can observe of an inherited value is
modelled: it is not an array, so pushing onto it throws a `TypeError`, and
keeping it at an intermediate step diverts the rest of the walk away from the
tree (the source then mutates the shared prototype object, which has no own
footprint in `issues`).  Not modelled: the internal properties of the builtins
themselves (writes to them are shared global state, prototype pollution) and
numeric-string indexing into array elements (reaching either needs a path
through an inherited value or an array at a proper leading segment, situations
the theorems below exclude by hypothesis or avoid in concrete inputs).  Path
keys are taken as strings; the source applies `String(key)` to every segment
before use.
-/

inductive JsVal where
  | obj (fields : List (String × JsVal))
  | arr (elems : List String) (fields : List (String × JsVal))
  | builtin (name : String)

/-- Property lookup on a field list: first binding wins. -/
def getField : List (String × JsVal) → String → Option JsVal
  | [], _ => none
  | (k', v) :: fs, k => if k' = k then some v else getField fs k

/-- Property assignment: an existing key keeps its position, a new key is
appended (JavaScript object insertion order). -/
def setField : List (String × JsVal) → String → JsVal → List (String × JsVal)
  | [], k, v => [(k, v)]
  | (k', v') :: fs, k, v => if k' = k then (k, v) :: fs else (k', v') :: setField fs k v

/-- The named own fields of a value (for arrays, the named properties).
Builtins found on the prototype chain are opaque: their own properties are not
tracked. -/
def fieldsOf : JsVal → List (String × JsVal)
  | .obj fs => fs
  | .arr _ fs => fs
  | .builtin _ => []

/-- Replace the named fields, keeping the constructor (array elements kept).
A write to an inherited builtin mutates shared prototype state, which has no
own footprint in the tree, so the builtin node is returned unchanged. -/
def withFields : JsVal → List (String × JsVal) → JsVal
  | .obj _, fs => .obj fs
  | .arr es _, fs => .arr es fs
  | .builtin n, _ => .builtin n

/-- The string-keyed properties a plain object (`{}`, and the `reactive({})`
root) inherits from `Object.prototype`. -/
def objProtoKeys : List String :=
  ["constructor", "hasOwnProperty", "isPrototypeOf", "propertyIsEnumerable",
   "toLocaleString", "toString", "valueOf", "__proto__", "__defineGetter__",
   "__defineSetter__", "__lookupGetter__", "__lookupSetter__"]

/-- The string-keyed properties an array (`[]`) exposes beyond its named own
properties: its own `length` and the `Array.prototype` methods (list as in a
current engine), plus everything inherited from `Object.prototype`.  Only
consulted on a read that reaches an array node, which needs a path conflict —
a situation outside every hypothesis below. -/
def arrayChainKeys : List String :=
  ["length", "at", "concat", "copyWithin", "entries", "every", "fill",
   "filter", "find", "findIndex", "findLast", "findLastIndex", "flat",
   "flatMap", "forEach", "includes", "indexOf", "join", "keys", "lastIndexOf",
   "map", "pop", "push", "reduce", "reduceRight", "reverse", "shift", "slice",
   "some", "sort", "splice", "toReversed", "toSorted", "toSpliced", "unshift",
   "values", "with"] ++ objProtoKeys

/-- What a property read finds when the own fields miss: the inherited value
from the prototype chain, if the key names one.  Reads on a builtin itself are
not tracked (the theorems below never reach them). -/
def protoGet : JsVal → String → Option JsVal
  | .obj _, k => if objProtoKeys.contains k then some (.builtin k) else none
  | .arr _ _, k => if arrayChainKeys.contains k then some (.builtin k) else none
  | .builtin _, _ => none

/-- `ps` contains a segment that a plain object inherits from
`Object.prototype`. -/
def usesProtoKey (ps : List String) : Bool :=
  ps.any (fun k => objProtoKeys.contains k)

def getF (t : JsVal) (k : String) : Option JsVal := getField (fieldsOf t) k

def setF (t : JsVal) (k : String) (v : JsVal) : JsVal :=
  withFields t (setField (fieldsOf t) k v)

/-- A standard-schema issue: `path` may be absent, and the source reads only
`path` and `message` off each issue record. -/
structure Issue where
  path : Option (List String)
  message : String
deriving DecidableEq, Repr

/-- Result of `schema['~standard'].validate`: success is `issues: undefined`. -/
structure ValidationResult where
  issues : Option (List Issue)
deriving DecidableEq, Repr

/-- Runtime failures surfacing from `validate`: a rejection of the validator
promise itself, or the `TypeError` raised by `fieldIssues.push` when the slot
at the final key already holds a nested object. -/
inductive JsError where
  | validatorError (msg : String)
  | typeError
deriving DecidableEq, Repr

/-- One issue's tree update, mirroring the loop body:

    let currentLevel = issues
    for (const key of path.slice(0, -1)) {
      currentLevel = currentLevel[String(key)] ??= {}
    }
    const fieldIssues = (currentLevel[String(path.at(-1))] ??= [])
    fieldIssues.push(message)

The read of `currentLevel[k]` finds an own property first and otherwise an
inherited one via `protoGet`; only when both miss is the value nullish and the
`??=` assignment performed.  At the final key the slot must end up an array:
an own nested object, an own builtin, or any inherited value (a function such
as `Object.prototype.toString`, or the `__proto__` object — never an array)
makes `.push` throw a `TypeError`.  At an intermediate key an inherited value
is kept and descended into; the mutations then land on the shared prototype
object, not in the tree, so on success the node is returned unchanged.  The
returned pair carries the tree as mutated so far even when the error component
is set, exactly as the in-place JavaScript walk leaves it (a `{}` materialized
by `??=` before a deeper throw persists). -/
def insertIssue : JsVal → List String → String → String → JsVal × Option JsError
  | t, [], finalKey, msg =>
    match getF t finalKey with
    | some (.arr es fs) => (setF t finalKey (.arr (es ++ [msg]) fs), none)
    | some (.obj _) => (t, some .typeError)
    | some (.builtin _) => (t, some .typeError)
    | none =>
      match protoGet t finalKey with
      | some _ => (t, some .typeError)
      | none => (setF t finalKey (.arr [msg] []), none)
  | t, key :: rest, finalKey, msg =>
    match getF t key with
    | some child =>
      (setF t key (insertIssue child rest finalKey msg).1,
        (insertIssue child rest finalKey msg).2)
    | none =>
      match protoGet t key with
      | some b => (t, (insertIssue b rest finalKey msg).2)
      | none =>
        (setF t key (insertIssue (.obj []) rest finalKey msg).1,
          (insertIssue (.obj []) rest finalKey msg).2)

/-- Loop body for one issue.  `if (!path) continue` skips only an absent path:
an empty array is truthy in JavaScript, so a present empty path falls through
with `path.slice(0, -1) = []` and `String(path.at(-1)) = "undefined"`. -/
def processIssue (t : JsVal) (i : Issue) : JsVal × Option JsError :=
  match i.path with
  | none => (t, none)
  | some ps => insertIssue t ps.dropLast ((ps.getLast?).getD "undefined") i.message

/-- The `for` loop over `result.issues`; a thrown `TypeError` aborts the loop
with the tree as mutated so far. -/
def runIssues : JsVal → List Issue → JsVal × Option JsError
  | t, [] => (t, none)
  | t, i :: rest =>
    match processIssue t i with
    | (t', none) => runIssues t' rest
    | (t', some e) => (t', some e)

def objKeys (t : JsVal) : List String := (fieldsOf t).map Prod.fst

/-- `delete issues[key]` on the root object. -/
def deleteKeyJs (t : JsVal) (k : String) : JsVal :=
  withFields t ((fieldsOf t).filter (fun p => p.1 ≠ k))

/-- `Object.keys(issues).forEach((key) => delete issues[key])` — the key list
is snapshotted before the deletions run. -/
def clearIssues (t : JsVal) : JsVal :=
  (objKeys t).foldl deleteKeyJs t

/-- `validate`, with the external validator call reified as its outcome: a
rejection (propagated before anything runs) or a structured result.

    const result = await schema['~standard'].validate(toValue(data))
    clearIssues()
    if (!result.issues) return true
    for (const { path, message } of result.issues) { ... }
    return false

The returned pair is the settled outcome of the promise together with the
state of the `issues` object afterward. -/
def validate (t : JsVal) (vres : Except String ValidationResult) :
    Except JsError Bool × JsVal :=
  match vres with
  | .error e => (.error (.validatorError e), t)
  | .ok result =>
    let cleared := clearIssues t
    match result.issues with
    | none => (.ok true, cleared)
    | some issues =>
      match runIssues cleared issues with
      | (t', none) => (.ok false, t')
      | (t', some e) => (.error e, t')

/-- The `watch` callback `() => Object.keys(issues).length && validate()`:
on a data-change notification, `validate` runs only when the tree has at least
one top-level key.  The first component records whether the validator was
invoked (`some` outcome) or not (`none`). -/
def onDataChange (t : JsVal) (vres : Except String ValidationResult) :
    Option (Except JsError Bool) × JsVal :=
  if (objKeys t).length ≠ 0 then (some (validate t vres).1, (validate t vres).2)
  else (none, t)

/-! ### Basic lemmas about field access -/

theorem getField_setField_self (fs : List (String × JsVal)) (k : String) (v : JsVal) :
    getField (setField fs k v) k = some v := by
  induction fs with
  | nil => simp [setField, getField]
  | cons p fs ih =>
    obtain ⟨k', v'⟩ := p
    by_cases h : k' = k
    · simp [setField, getField, h]
    · simp [setField, getField, h, ih]

theorem getField_setField_ne (fs : List (String × JsVal)) (k k' : String) (v : JsVal)
    (h : k' ≠ k) : getField (setField fs k v) k' = getField fs k' := by
  have hne : ¬ k = k' := fun hh => h hh.symm
  induction fs with
  | nil => simp [setField, getField, hne]
  | cons p fs ih =>
    obtain ⟨k₀, v₀⟩ := p
    by_cases h₀ : k₀ = k
    · subst h₀
      simp [setField, getField, hne]
    · by_cases h₁ : k₀ = k'
      · simp [setField, getField, h₀, h₁, h]
      · simp [setField, getField, h₀, h₁, ih]

theorem getF_setF_self (t : JsVal) (k : String) (v : JsVal)
    (hb : ∀ n, t ≠ JsVal.builtin n) : getF (setF t k v) k = some v := by
  cases t with
  | obj fs => exact getField_setField_self fs k v
  | arr es fs => exact getField_setField_self fs k v
  | builtin n => exact absurd rfl (hb n)

theorem getF_setF_ne (t : JsVal) (k k' : String) (v : JsVal) (h : k' ≠ k) :
    getF (setF t k v) k' = getF t k' := by
  cases t with
  | obj fs => exact getField_setField_ne fs k k' v h
  | arr es fs => exact getField_setField_ne fs k k' v h
  | builtin n => rfl

theorem setF_obj (fs : List (String × JsVal)) (k : String) (v : JsVal) :
    ∃ gs, setF (.obj fs) k v = .obj gs := ⟨_, rfl⟩

/-! ### Path lookup -/

/-- Follow a key path through the tree, via the same property access the walk
in `validate` performs. -/
def lookupPath (t : JsVal) : List String → Option JsVal
  | [] => some t
  | k :: ks =>
    match getF t k with
    | none => none
    | some c => lookupPath c ks

@[simp] theorem lookupPath_nil (t : JsVal) : lookupPath t [] = some t := rfl

theorem lookupPath_cons (t : JsVal) (k : String) (ks : List String) :
    lookupPath t (k :: ks) =
      match getF t k with
      | none => none
      | some c => lookupPath c ks := rfl

theorem lookupPath_obj_nil (q : List String) (hq : q ≠ []) :
    lookupPath (.obj []) q = none := by
  cases q with
  | nil => exact absurd rfl hq
  | cons k ks => simp [lookupPath_cons, getF, fieldsOf, getField]

/-! ### Leading segments of paths -/

/-- `isLead q p` : `q` is a (possibly equal) leading segment of `p`. -/
def isLead : List String → List String → Bool
  | [], _ => true
  | _ :: _, [] => false
  | a :: as, b :: bs => (a == b) && isLead as bs

/-- `properLead q p` : `q` is a strictly shorter leading segment of `p`. -/
def properLead (q p : List String) : Bool :=
  isLead q p && decide (q.length < p.length)

@[simp] theorem isLead_nil_left (p : List String) : isLead [] p = true := by
  cases p <;> rfl

@[simp] theorem isLead_cons_nil (a : String) (as : List String) :
    isLead (a :: as) [] = false := rfl

@[simp] theorem isLead_cons_cons (a b : String) (as bs : List String) :
    isLead (a :: as) (b :: bs) = ((a == b) && isLead as bs) := rfl

theorem isLead_refl (p : List String) : isLead p p = true := by
  induction p with
  | nil => rfl
  | cons a as ih => simp [ih]

theorem isLead_length_le (q p : List String) (h : isLead q p = true) :
    q.length ≤ p.length := by
  induction q generalizing p with
  | nil => simp
  | cons a as ih =>
    cases p with
    | nil => simp at h
    | cons b bs =>
      simp at h
      simpa using ih bs h.2

theorem isLead_eq_of_length (q p : List String) (h : isLead q p = true)
    (hl : q.length = p.length) : q = p := by
  induction q generalizing p with
  | nil =>
    cases p with
    | nil => rfl
    | cons b bs => simp at hl
  | cons a as ih =>
    cases p with
    | nil => simp at h
    | cons b bs =>
      simp at h hl
      rw [h.1, ih bs h.2 hl]

theorem isLead_iff_proper_or_eq (q p : List String) :
    isLead q p = true ↔ (properLead q p = true ∨ q = p) := by
  constructor
  · intro h
    rcases Nat.lt_or_ge q.length p.length with hl | hl
    · exact Or.inl (by simp [properLead, h, hl])
    · exact Or.inr (isLead_eq_of_length q p h
        (Nat.le_antisymm (isLead_length_le q p h) hl))
  · rintro (h | rfl)
    · simp [properLead] at h
      exact h.1
    · exact isLead_refl q

theorem properLead_isLead (q p : List String) (h : properLead q p = true) :
    isLead q p = true := by
  simp [properLead] at h
  exact h.1

theorem properLead_ne (q p : List String) (h : properLead q p = true) : q ≠ p := by
  simp [properLead] at h
  intro hq
  subst hq
  exact Nat.lt_irrefl _ h.2

theorem properLead_nil_left (p : List String) (hp : p ≠ []) :
    properLead [] p = true := by
  cases p with
  | nil => exact absurd rfl hp
  | cons b bs => simp [properLead]

theorem properLead_cons_cons (a b : String) (as bs : List String) :
    properLead (a :: as) (b :: bs) = ((a == b) && properLead as bs) := by
  simp [properLead, Nat.succ_lt_succ_iff, Bool.and_assoc, Bool.and_left_comm]

theorem not_lead_of_head_ne (a b : String) (as bs : List String) (h : a ≠ b) :
    isLead (a :: as) (b :: bs) = false := by
  simp [h]

/-! ### clearIssues empties the root object -/

theorem foldl_deleteKeyJs (ks : List String) :
    ∀ fs : List (String × JsVal), (∀ p ∈ fs, p.1 ∈ ks) →
      ks.foldl deleteKeyJs (.obj fs) = .obj [] := by
  induction ks with
  | nil =>
    intro fs h
    cases fs with
    | nil => rfl
    | cons p fs => exact absurd (h p (by simp)) (by simp)
  | cons k ks ih =>
    intro fs h
    have hstep : deleteKeyJs (.obj fs) k = .obj (fs.filter (fun p => p.1 ≠ k)) := rfl
    calc (k :: ks).foldl deleteKeyJs (.obj fs)
        = ks.foldl deleteKeyJs (.obj (fs.filter (fun p => p.1 ≠ k))) := by
          rw [List.foldl_cons, hstep]
      _ = .obj [] := by
          apply ih
          intro p hp
          rw [List.mem_filter] at hp
          have hk := h p hp.1
          rcases List.mem_cons.mp hk with h1 | h1
          · exact absurd h1 (by simpa using hp.2)
          · exact h1

theorem clearIssues_obj (fs : List (String × JsVal)) :
    clearIssues (.obj fs) = .obj [] := by
  apply foldl_deleteKeyJs
  intro p hp
  exact List.mem_map_of_mem Prod.fst hp

/-! ### Inserting one issue, indexed by its full effective key path -/

/-- `insertIssue` with `leading`/`finalKey` recovered from the full path, as
the loop computes them via `path.slice(0, -1)` and `String(path.at(-1))`. -/
def insertFull (t : JsVal) (P : List String) (m : String) : JsVal × Option JsError :=
  insertIssue t P.dropLast ((P.getLast?).getD "undefined") m

/-- The effective key path an issue with present path `ps` is stored under:
itself when non-empty, and the single key `"undefined"` for an empty path
(`String(undefined)`). -/
def keyPath (ps : List String) : List String :=
  ps.dropLast ++ [(ps.getLast?).getD "undefined"]

theorem keyPath_ne_nil (ps : List String) : keyPath ps ≠ [] := by
  simp [keyPath]

theorem keyPath_of_ne_nil (ps : List String) (h : ps ≠ []) : keyPath ps = ps := by
  rcases List.exists_cons_of_ne_nil h with ⟨a, as, rfl⟩
  simp [keyPath, List.getLast?_eq_getLast_of_ne_nil, List.dropLast_append_getLast]

@[simp] theorem keyPath_nil : keyPath [] = ["undefined"] := rfl

theorem processIssue_none (t : JsVal) (i : Issue) (h : i.path = none) :
    processIssue t i = (t, none) := by
  simp [processIssue, h]

theorem processIssue_some (t : JsVal) (i : Issue) (ps : List String)
    (h : i.path = some ps) : processIssue t i = insertFull t (keyPath ps) i.message := by
  rcases Decidable.em (ps = []) with rfl | hne
  · simp [processIssue, h, insertFull, keyPath]
  · rw [keyPath_of_ne_nil ps hne]
    simp [processIssue, h, insertFull]

theorem insertFull_single (t : JsVal) (fk m : String) :
    insertFull t [fk] m = insertIssue t [] fk m := by
  simp [insertFull]

theorem insertFull_cons₂_some (t child : JsVal) (a b : String) (bs : List String)
    (m : String) (hg : getF t a = some child) :
    insertFull t (a :: b :: bs) m =
      (setF t a (insertFull child (b :: bs) m).1, (insertFull child (b :: bs) m).2) := by
  have h1 : (a :: b :: bs).dropLast = a :: (b :: bs).dropLast := by simp [List.dropLast]
  have h2 : (a :: b :: bs).getLast? = (b :: bs).getLast? := List.getLast?_cons_cons
  simp [insertFull, h1, h2, insertIssue, hg]

theorem insertFull_cons₂_none (t : JsVal) (a b : String) (bs : List String)
    (m : String) (hg : getF t a = none) (hp : protoGet t a = none) :
    insertFull t (a :: b :: bs) m =
      (setF t a (insertFull (.obj []) (b :: bs) m).1,
        (insertFull (.obj []) (b :: bs) m).2) := by
  have h1 : (a :: b :: bs).dropLast = a :: (b :: bs).dropLast := by simp [List.dropLast]
  have h2 : (a :: b :: bs).getLast? = (b :: bs).getLast? := List.getLast?_cons_cons
  simp [insertFull, h1, h2, insertIssue, hg, hp]

theorem lookupPath_single (t : JsVal) (k : String) : lookupPath t [k] = getF t k := by
  cases hg : getF t k <;> simp [lookupPath_cons, hg]

theorem getF_obj_nil (k : String) : getF (.obj []) k = none := rfl


theorem lookupPath_cons_some (t c : JsVal) (k : String) (ks : List String)
    (h : getF t k = some c) : lookupPath t (k :: ks) = lookupPath c ks := by
  rw [lookupPath_cons, h]

theorem lookupPath_cons_none (t : JsVal) (k : String) (ks : List String)
    (h : getF t k = none) : lookupPath t (k :: ks) = none := by
  rw [lookupPath_cons, h]

theorem properLead_single (q : List String) (k : String) (h : properLead q [k] = true) :
    q = [] := by
  simp only [properLead, Bool.and_eq_true, decide_eq_true_eq] at h
  exact List.length_eq_zero.mp (Nat.lt_one_iff.mp h.2)

/-- Effect of inserting one issue at a non-empty key path `P` into an object
root, provided no segment of `P` names an `Object.prototype` key (so no read
along the walk finds an inherited value), every non-empty proper leading
position currently holds a nested object or nothing, and the slot at `P`
holds an array without named fields or nothing: the insert succeeds, lookups
off `P` are untouched, proper leading positions hold nested objects, the slot
at `P` gains the message at the end, and an object root stays an object
root. -/
theorem insertFull_spec :
    ∀ P : List String, P ≠ [] → ∀ (t : JsVal) (m : String),
      (∃ gs, t = .obj gs) →
      (∀ k, k ∈ P → objProtoKeys.contains k = false) →
      (∀ q, q ≠ [] → properLead q P = true →
          lookupPath t q = none ∨ ∃ fs, lookupPath t q = some (.obj fs)) →
      (lookupPath t P = none ∨ ∃ es, lookupPath t P = some (.arr es [])) →
      ∃ t', insertFull t P m = (t', none) ∧
        (∀ q, isLead q P = false → lookupPath t' q = lookupPath t q) ∧
        (∀ q, q ≠ [] → properLead q P = true → ∃ fs, lookupPath t' q = some (.obj fs)) ∧
        (lookupPath t P = none → lookupPath t' P = some (.arr [m] [])) ∧
        (∀ es, lookupPath t P = some (.arr es []) →
          lookupPath t' P = some (.arr (es ++ [m]) [])) ∧
        (∀ gs, t = .obj gs → ∃ gs', t' = .obj gs') := by
  intro P
  induction P with
  | nil => intro h; exact absurd rfl h
  | cons a as ih =>
    intro _ t m ht hkeys hwalk hfin
    have hbt : ∀ n, t ≠ JsVal.builtin n := by
      obtain ⟨gs, hgs⟩ := ht
      rw [hgs]
      intro n hn
      exact JsVal.noConfusion hn
    have hpga : protoGet t a = none := by
      obtain ⟨gs, hgs⟩ := ht
      rw [hgs]
      simp only [protoGet]
      rw [hkeys a (by simp)]
      simp
    cases as with
    | nil =>
      -- base case: the path is the single final key `a`
      rw [lookupPath_single] at hfin
      cases hg : getF t a with
      | none =>
        refine ⟨setF t a (.arr [m] []), ?_, ?_, ?_, ?_, ?_, ?_⟩
        · rw [insertFull_single]
          simp [insertIssue, hg, hpga]
        · intro q hq
          cases q with
          | nil => simp at hq
          | cons j q' =>
            by_cases hj : j = a
            · rw [hj] at hq ⊢
              cases q' with
              | nil => simp at hq
              | cons c q'' =>
                rw [lookupPath_cons_some _ _ _ _ (getF_setF_self t a _ hbt),
                  lookupPath_cons_none t a _ hg]
                exact lookupPath_cons_none _ _ _ rfl
            · rw [lookupPath_cons, lookupPath_cons, getF_setF_ne t a j _ hj]
        · intro q hq hpl
          exact absurd (properLead_single q a hpl) hq
        · intro _
          rw [lookupPath_single, getF_setF_self t a _ hbt]
        · intro es hes
          rw [lookupPath_single, hg] at hes
          exact absurd hes (by simp)
        · intro gs hgs
          subst hgs
          exact ⟨_, rfl⟩
      | some c =>
        rw [hg] at hfin
        rcases hfin with hfin | ⟨es, hes⟩
        · exact absurd hfin (by simp)
        · have hc : c = .arr es [] := by simpa using hes
          subst hc
          refine ⟨setF t a (.arr (es ++ [m]) []), ?_, ?_, ?_, ?_, ?_, ?_⟩
          · rw [insertFull_single]
            simp [insertIssue, hg]
          · intro q hq
            cases q with
            | nil => simp at hq
            | cons j q' =>
              by_cases hj : j = a
              · rw [hj] at hq ⊢
                cases q' with
                | nil => simp at hq
                | cons c' q'' =>
                  rw [lookupPath_cons_some _ _ _ _ (getF_setF_self t a _ hbt),
                    lookupPath_cons_some _ _ _ _ hg]
                  rw [lookupPath_cons_none (.arr (es ++ [m]) []) c' q'' rfl,
                    lookupPath_cons_none (.arr es []) c' q'' rfl]
              · rw [lookupPath_cons, lookupPath_cons, getF_setF_ne t a j _ hj]
          · intro q hq hpl
            exact absurd (properLead_single q a hpl) hq
          · intro hnone
            rw [lookupPath_single, hg] at hnone
            exact absurd hnone (by simp)
          · intro es' hes'
            rw [lookupPath_single, hg] at hes'
            have heq : JsVal.arr es [] = JsVal.arr es' [] := Option.some.inj hes'
            have hese : es = es' := by
              cases heq
              rfl
            subst hese
            rw [lookupPath_single, getF_setF_self t a _ hbt]
          · intro gs hgs
            subst hgs
            exact ⟨_, rfl⟩
    | cons b bs =>
      -- step case: descend into the child at `a`
      have hQne : (b :: bs) ≠ [] := by simp
      have hkeysQ : ∀ k, k ∈ (b :: bs) → objProtoKeys.contains k = false :=
        fun k hk => hkeys k (List.mem_cons_of_mem a hk)
      have hchild_obj : ∃ gs, (getF t a).getD (.obj []) = JsVal.obj gs := by
        cases hg : getF t a with
        | none => exact ⟨[], rfl⟩
        | some c =>
          have hpla : properLead [a] (a :: b :: bs) = true := by
            rw [properLead_cons_cons]
            simp [properLead_nil_left _ hQne]
          have hres := hwalk [a] (by simp) hpla
          rw [lookupPath_single, hg] at hres
          rcases hres with hbad | ⟨fs, hfs'⟩
          · exact absurd hbad (by simp)
          · exact ⟨fs, by simpa using hfs'⟩
      have hchild_walk : ∀ q, q ≠ [] → properLead q (b :: bs) = true →
          lookupPath ((getF t a).getD (.obj [])) q = none ∨
            ∃ fs, lookupPath ((getF t a).getD (.obj [])) q = some (.obj fs) := by
        intro q hq hpl
        cases hg : getF t a with
        | none => exact Or.inl (by simp [lookupPath_obj_nil q hq])
        | some c =>
          have haq : lookupPath t (a :: q) = lookupPath c q :=
            lookupPath_cons_some t c a q hg
          have hplq : properLead (a :: q) (a :: b :: bs) = true := by
            rw [properLead_cons_cons]
            simp [hpl]
          have hres := hwalk (a :: q) (by simp) hplq
          rw [haq] at hres
          simpa using hres
      have hchild_fin : lookupPath ((getF t a).getD (.obj [])) (b :: bs) = none ∨
          ∃ es, lookupPath ((getF t a).getD (.obj [])) (b :: bs) = some (.arr es []) := by
        cases hg : getF t a with
        | none => exact Or.inl (by simp [lookupPath_obj_nil _ hQne])
        | some c =>
          have haq : lookupPath t (a :: b :: bs) = lookupPath c (b :: bs) :=
            lookupPath_cons_some t c a _ hg
          rw [haq] at hfin
          simpa using hfin
      obtain ⟨child', hok, hdiv, hlead, hfn, hfs, hctor⟩ :=
        ih hQne ((getF t a).getD (.obj [])) m hchild_obj hkeysQ hchild_walk hchild_fin
      refine ⟨setF t a child', ?_, ?_, ?_, ?_, ?_, ?_⟩
      · cases hg : getF t a with
        | some c =>
          rw [insertFull_cons₂_some t c a b bs m hg]
          rw [hg] at hok
          simp only [Option.getD_some] at hok
          rw [hok]
        | none =>
          rw [insertFull_cons₂_none t a b bs m hg hpga]
          rw [hg] at hok
          simp only [Option.getD_none] at hok
          rw [hok]
      · intro q hq
        cases q with
        | nil => simp at hq
        | cons j q' =>
          by_cases hj : j = a
          · rw [hj] at hq ⊢
            have hq' : isLead q' (b :: bs) = false := by simpa using hq
            have hq'ne : q' ≠ [] := by
              intro hh
              rw [hh] at hq'
              simp at hq'
            rw [lookupPath_cons_some _ _ _ _ (getF_setF_self t a child' hbt), hdiv q' hq']
            cases hg : getF t a with
            | none =>
              rw [lookupPath_cons_none t a _ hg]
              simp [hg, lookupPath_obj_nil q' hq'ne]
            | some c =>
              rw [lookupPath_cons_some t c a _ hg]
              simp [hg]
          · rw [lookupPath_cons, lookupPath_cons, getF_setF_ne t a j _ hj]
      · intro q hq hpl
        cases q with
        | nil => exact absurd rfl hq
        | cons j q' =>
          rw [properLead_cons_cons] at hpl
          simp only [Bool.and_eq_true, beq_iff_eq] at hpl
          obtain ⟨hja, hpl'⟩ := hpl
          rw [hja]
          cases q' with
          | nil =>
            -- the position `[a]` holds the (object) child after the insert
            have hL : lookupPath (setF t a child') [a] = some child' := by
              rw [lookupPath_single, getF_setF_self t a child' hbt]
            obtain ⟨gs, hgs⟩ := hchild_obj
            obtain ⟨gs', hgs'⟩ := hctor gs hgs
            exact ⟨gs', by rw [hL, hgs']⟩
          | cons c q'' =>
            obtain ⟨fs, hfs'⟩ := hlead (c :: q'') (by simp) hpl'
            refine ⟨fs, ?_⟩
            rw [lookupPath_cons_some _ _ _ _ (getF_setF_self t a child' hbt)]
            exact hfs'
      · intro hnone
        rw [lookupPath_cons_some _ _ _ _ (getF_setF_self t a child' hbt)]
        apply hfn
        cases hg : getF t a with
        | none => simp [hg, lookupPath_obj_nil _ hQne]
        | some c =>
          rw [lookupPath_cons_some t c a _ hg] at hnone
          simp [hg, hnone]
      · intro es hes
        rw [lookupPath_cons_some _ _ _ _ (getF_setF_self t a child' hbt)]
        apply hfs
        cases hg : getF t a with
        | none =>
          rw [lookupPath_cons_none t a _ hg] at hes
          exact absurd hes (by simp)
        | some c =>
          rw [lookupPath_cons_some t c a _ hg] at hes
          simp [hg, hes]
      · intro gs hgs
        subst hgs
        exact ⟨_, rfl⟩

/-! ### Conflict-freedom of path lists -/

/-- `p` neither properly leads nor is properly led by any member of the list. -/
def okWith (p : List String) : List (List String) → Bool
  | [] => true
  | q :: qs => !(properLead p q) && !(properLead q p) && okWith p qs

/-- No member of the list is a strict leading segment of another member. -/
def noConflicts : List (List String) → Bool
  | [] => true
  | p :: ps => okWith p ps && noConflicts ps

/-- The paths of the issues that carry one (`path` present, emptiness kept). -/
def presentPaths (issues : List Issue) : List (List String) :=
  issues.filterMap Issue.path

/-- No present issue path is a strict leading segment of another present
issue path of the same result. -/
def noPrefixConflictB (issues : List Issue) : Bool :=
  noConflicts (presentPaths issues)

/-- No present issue path of the result contains a segment that a plain
object inherits from `Object.prototype` (such a segment makes the `??=` read
find a non-nullish inherited value instead of materializing a node). -/
def noProtoKeysB (issues : List Issue) : Bool :=
  (presentPaths issues).all (fun ps => !(usesProtoKey ps))

/-- The (effective key path, message) pairs `validate` will store, in order. -/
def entriesOf (issues : List Issue) : List (List String × String) :=
  issues.filterMap (fun i => i.path.map (fun ps => (keyPath ps, i.message)))

def pathsL (L : List (List String × String)) : List (List String) := L.map Prod.fst

/-- The messages stored under key path `P` by the entry list `L`, in order. -/
def msgsAt (P : List String) (L : List (List String × String)) : List String :=
  (L.filter (fun e => e.1 == P)).map Prod.snd

theorem msgsAt_append_self (P : List String) (L : List (List String × String))
    (m : String) : msgsAt P (L ++ [(P, m)]) = msgsAt P L ++ [m] := by
  simp [msgsAt, List.filter_append]

theorem msgsAt_append_ne (P P' : List String) (L : List (List String × String))
    (m : String) (h : P ≠ P') : msgsAt P' (L ++ [(P, m)]) = msgsAt P' L := by
  simp [msgsAt, List.filter_append, h]

theorem msgsAt_of_not_mem (P : List String) (L : List (List String × String))
    (h : ¬ P ∈ pathsL L) : msgsAt P L = [] := by
  induction L with
  | nil => rfl
  | cons e L ih =>
    have h1 : ¬ e.1 = P := by
      intro hh
      exact h (by simp [pathsL, hh])
    have h2 : ¬ P ∈ pathsL L := by
      intro hh
      exact h (by simp [pathsL] at hh ⊢; exact Or.inr hh)
    simpa [msgsAt, List.filter_cons, h1] using ih h2

theorem pathsL_append_single (L : List (List String × String)) (P : List String)
    (m : String) : pathsL (L ++ [(P, m)]) = pathsL L ++ [P] := by
  simp [pathsL]

/-- The tree one gets by folding a conflict-free entry list into an empty
object: arrays of messages exactly at the stored key paths, nested objects
exactly at their strict leading positions, nothing anywhere else. -/
structure Models (t : JsVal) (L : List (List String × String)) : Prop where
  leaf : ∀ P, P ∈ pathsL L → lookupPath t P = some (.arr (msgsAt P L) [])
  inner : ∀ q, q ≠ [] → (∃ P, P ∈ pathsL L ∧ properLead q P = true) →
    ∃ fs, lookupPath t q = some (.obj fs)
  off : ∀ q, q ≠ [] → (∀ P, P ∈ pathsL L → isLead q P = false) → lookupPath t q = none
  isRoot : ∃ fs, t = .obj fs

theorem models_empty : Models (.obj []) [] := by
  refine ⟨?_, ?_, ?_, ⟨[], rfl⟩⟩
  · intro P hP
    simp [pathsL] at hP
  · intro q hq hex
    obtain ⟨P, hP, _⟩ := hex
    simp [pathsL] at hP
  · intro q hq _
    exact lookupPath_obj_nil q hq

theorem models_insert (t : JsVal) (L : List (List String × String)) (P : List String)
    (m : String) (hM : Models t L) (hP : P ≠ [])
    (hkP : ∀ k, k ∈ P → objProtoKeys.contains k = false)
    (hc : ∀ p, p ∈ pathsL L → properLead p P = false ∧ properLead P p = false) :
    ∃ t', insertFull t P m = (t', none) ∧ Models t' (L ++ [(P, m)]) := by
  have hwalk : ∀ q, q ≠ [] → properLead q P = true →
      lookupPath t q = none ∨ ∃ fs, lookupPath t q = some (.obj fs) := by
    intro q hq hpl
    by_cases hex : ∃ p, p ∈ pathsL L ∧ properLead q p = true
    · exact Or.inr (hM.inner q hq hex)
    · refine Or.inl (hM.off q hq ?_)
      intro p hp
      cases hil : isLead q p with
      | false => rfl
      | true =>
        rcases (isLead_iff_proper_or_eq q p).mp hil with hpl' | rfl
        · exact absurd ⟨p, hp, hpl'⟩ hex
        · exact absurd hpl (by simp [(hc q hp).1])
  have hfin : lookupPath t P = none ∨ ∃ es, lookupPath t P = some (.arr es []) := by
    by_cases hmem : P ∈ pathsL L
    · exact Or.inr ⟨msgsAt P L, hM.leaf P hmem⟩
    · refine Or.inl (hM.off P hP ?_)
      intro p hp
      cases hil : isLead P p with
      | false => rfl
      | true =>
        rcases (isLead_iff_proper_or_eq P p).mp hil with hpl' | rfl
        · exact absurd hpl' (by simp [(hc p hp).2])
        · exact absurd hp hmem
  obtain ⟨t', hok, hdiv, hlead, hfn, hfs, hctor⟩ :=
    insertFull_spec P hP t m hM.isRoot hkP hwalk hfin
  refine ⟨t', hok, ?_, ?_, ?_, ?_⟩
  · intro P' hP'
    have hP'' : P' ∈ pathsL L ∨ P' = P := by
      rw [pathsL_append_single, List.mem_append, List.mem_singleton] at hP'
      exact hP'
    by_cases heq : P' = P
    · subst heq
      by_cases hmem : P' ∈ pathsL L
      · rw [msgsAt_append_self, hfs (msgsAt P' L) (hM.leaf P' hmem)]
      · have hnone : lookupPath t P' = none := by
          refine hM.off P' hP ?_
          intro p hp
          cases hil : isLead P' p with
          | false => rfl
          | true =>
            rcases (isLead_iff_proper_or_eq P' p).mp hil with hpl' | rfl
            · exact absurd hpl' (by simp [(hc p hp).2])
            · exact absurd hp hmem
        rw [msgsAt_append_self, msgsAt_of_not_mem P' L hmem, hfn hnone]
        simp
    · rcases hP'' with hmem | h
      · have hil : isLead P' P = false := by
          cases hil : isLead P' P with
          | false => rfl
          | true =>
            rcases (isLead_iff_proper_or_eq P' P).mp hil with hpl' | hpe
            · exact absurd hpl' (by simp [(hc P' hmem).1])
            · exact absurd hpe heq
        rw [msgsAt_append_ne P P' L m (fun hh => heq hh.symm), hdiv P' hil]
        exact hM.leaf P' hmem
      · exact absurd h heq
  · intro q hq hex
    obtain ⟨P'', hmem'', hpl''⟩ := hex
    have hsplit : P'' ∈ pathsL L ∨ P'' = P := by
      rw [pathsL_append_single, List.mem_append, List.mem_singleton] at hmem''
      exact hmem''
    rcases hsplit with hmem | rfl
    · by_cases hlq : isLead q P = true
      · rcases (isLead_iff_proper_or_eq q P).mp hlq with hpl' | rfl
        · exact hlead q hq hpl'
        · exact absurd hpl'' (by simp [(hc P'' hmem).2])
      · rw [hdiv q (by simpa using hlq)]
        exact hM.inner q hq ⟨P'', hmem, hpl''⟩
    · exact hlead q hq hpl''
  · intro q hq hall
    have hilP : isLead q P = false := by
      apply hall
      rw [pathsL_append_single]
      exact List.mem_append.mpr (Or.inr (by simp))
    rw [hdiv q hilP]
    refine hM.off q hq ?_
    intro p hp
    apply hall
    rw [pathsL_append_single]
    exact List.mem_append.mpr (Or.inl hp)
  · obtain ⟨fs, hfs'⟩ := hM.isRoot
    exact hctor fs hfs'

/-! ### From the conflict-freedom Boolean to pairwise facts on entries -/

/-- Neither path is a strict leading segment of the other. -/
def conflictFree (p q : List String) : Prop :=
  properLead p q = false ∧ properLead q p = false

theorem conflictFree_symm (p q : List String) (h : conflictFree p q) :
    conflictFree q p := ⟨h.2, h.1⟩

theorem okWith_iff (p : List String) (l : List (List String)) :
    okWith p l = true ↔ ∀ q ∈ l, conflictFree p q := by
  induction l with
  | nil => simp [okWith]
  | cons q qs ih =>
    simp only [okWith, Bool.and_eq_true, Bool.not_eq_true', List.mem_cons]
    constructor
    · rintro ⟨⟨h1, h2⟩, h3⟩
      intro x hx
      rcases hx with rfl | hx
      · exact ⟨h1, h2⟩
      · exact ih.mp h3 x hx
    · intro h
      exact ⟨⟨(h q (Or.inl rfl)).1, (h q (Or.inl rfl)).2⟩,
        ih.mpr (fun x hx => h x (Or.inr hx))⟩

theorem noConflicts_iff (l : List (List String)) :
    noConflicts l = true ↔ List.Pairwise conflictFree l := by
  induction l with
  | nil => simp [noConflicts]
  | cons p ps ih =>
    simp only [noConflicts, Bool.and_eq_true, List.pairwise_cons]
    rw [okWith_iff, ih]

theorem properLead_self (p : List String) : properLead p p = false := by
  simp [properLead]

theorem conflictFree_keyPath (ps qs : List String) (h : conflictFree ps qs) :
    conflictFree (keyPath ps) (keyPath qs) := by
  by_cases hp : ps = []
  · by_cases hq : qs = []
    · subst hp; subst hq
      exact ⟨properLead_self _, properLead_self _⟩
    · subst hp
      exact absurd (properLead_nil_left qs hq) (by simp [h.1])
  · by_cases hq : qs = []
    · subst hq
      exact absurd (properLead_nil_left ps hp) (by simp [h.2])
    · rw [keyPath_of_ne_nil ps hp, keyPath_of_ne_nil qs hq]
      exact h

theorem mem_entriesOf (e : List String × String) (I : List Issue) :
    e ∈ entriesOf I ↔ ∃ i, i ∈ I ∧ ∃ ps, i.path = some ps ∧ e = (keyPath ps, i.message) := by
  simp only [entriesOf, List.mem_filterMap, Option.map_eq_some']
  constructor
  · rintro ⟨i, hi, ps, hps, rfl⟩
    exact ⟨i, hi, ps, hps, rfl⟩
  · rintro ⟨i, hi, ps, hps, rfl⟩
    exact ⟨i, hi, ps, hps, rfl⟩

theorem pairwise_entriesOf (I : List Issue)
    (h : List.Pairwise conflictFree (presentPaths I)) :
    List.Pairwise (fun e e' => conflictFree e.1 e'.1) (entriesOf I) := by
  induction I with
  | nil => simp [entriesOf]
  | cons i rest ih =>
    cases hpath : i.path with
    | none =>
      have he : entriesOf (i :: rest) = entriesOf rest := by simp [entriesOf, hpath]
      have hp : presentPaths (i :: rest) = presentPaths rest := by
        simp [presentPaths, hpath]
      rw [he]
      rw [hp] at h
      exact ih h
    | some ps =>
      have he : entriesOf (i :: rest) = (keyPath ps, i.message) :: entriesOf rest := by
        simp [entriesOf, hpath]
      have hp : presentPaths (i :: rest) = ps :: presentPaths rest := by
        simp [presentPaths, hpath]
      rw [hp] at h
      rw [he]
      rcases List.pairwise_cons.mp h with ⟨hhead, htail⟩
      refine List.pairwise_cons.mpr ⟨?_, ih htail⟩
      intro e' he'
      rcases (mem_entriesOf e' rest).mp he' with ⟨j, hj, ps', hps', rfl⟩
      have hmem : ps' ∈ presentPaths rest := by
        simp only [presentPaths, List.mem_filterMap]
        exact ⟨j, hj, hps'⟩
      exact conflictFree_keyPath ps ps' (hhead ps' hmem)

/-! ### Running a conflict-free issue list builds exactly the modelled trie -/

theorem runIssues_models :
    ∀ (I : List Issue) (t : JsVal) (L : List (List String × String)),
      Models t L →
      (∀ e, e ∈ entriesOf I → ∀ k, k ∈ e.1 → objProtoKeys.contains k = false) →
      (∀ e, e ∈ entriesOf I → ∀ p, p ∈ pathsL L → conflictFree p e.1) →
      List.Pairwise (fun e e' => conflictFree e.1 e'.1) (entriesOf I) →
      ∃ T, runIssues t I = (T, none) ∧ Models T (L ++ entriesOf I) := by
  intro I
  induction I with
  | nil =>
    intro t L hM _ _ _
    exact ⟨t, rfl, by simpa [entriesOf] using hM⟩
  | cons i rest ih =>
    intro t L hM hkeys hcross hpair
    cases hpath : i.path with
    | none =>
      have he : entriesOf (i :: rest) = entriesOf rest := by simp [entriesOf, hpath]
      have hrun : runIssues t (i :: rest) = runIssues t rest := by
        simp [runIssues, processIssue_none t i hpath]
      rw [hrun]
      rw [he] at hkeys hcross hpair ⊢
      exact ih t L hM hkeys hcross hpair
    | some ps =>
      have he : entriesOf (i :: rest) = (keyPath ps, i.message) :: entriesOf rest := by
        simp [entriesOf, hpath]
      have hmem : (keyPath ps, i.message) ∈ entriesOf (i :: rest) := by
        rw [he]
        simp
      have hc : ∀ p, p ∈ pathsL L →
          properLead p (keyPath ps) = false ∧ properLead (keyPath ps) p = false := by
        intro p hp
        exact hcross (keyPath ps, i.message) hmem p hp
      have hkP : ∀ k, k ∈ keyPath ps → objProtoKeys.contains k = false :=
        hkeys (keyPath ps, i.message) hmem
      obtain ⟨t', hok, hM'⟩ :=
        models_insert t L (keyPath ps) i.message hM (keyPath_ne_nil ps) hkP hc
      have hrun : runIssues t (i :: rest) = runIssues t' rest := by
        simp [runIssues, processIssue_some t i ps hpath, hok]
      rw [hrun, he]
      rw [he] at hkeys hcross hpair
      rcases List.pairwise_cons.mp hpair with ⟨hhead, htail⟩
      have hkeys' : ∀ e, e ∈ entriesOf rest → ∀ k, k ∈ e.1 →
          objProtoKeys.contains k = false :=
        fun e hee => hkeys e (List.mem_cons_of_mem _ hee)
      have hcross' : ∀ e, e ∈ entriesOf rest →
          ∀ p, p ∈ pathsL (L ++ [(keyPath ps, i.message)]) → conflictFree p e.1 := by
        intro e hee p hp
        rw [pathsL_append_single, List.mem_append, List.mem_singleton] at hp
        rcases hp with hp | rfl
        · exact hcross e (List.mem_cons_of_mem _ hee) p hp
        · exact hhead e hee
      obtain ⟨T, h1, h2⟩ := ih t' (L ++ [(keyPath ps, i.message)]) hM' hkeys' hcross' htail
      refine ⟨T, h1, ?_⟩
      have hassoc : (L ++ [(keyPath ps, i.message)]) ++ entriesOf rest =
          L ++ ((keyPath ps, i.message) :: entriesOf rest) := by
        simp
      rw [hassoc] at h2
      exact h2

/-! ### Structural facts independent of conflict-freedom -/

theorem insertIssue_top_ne (leading : List String) (t : JsVal) (fk m : String)
    (k : String) (hk : k ≠ (leading ++ [fk]).headI) :
    getF (insertIssue t leading fk m).1 k = getF t k := by
  cases leading with
  | nil =>
    simp only [List.nil_append, List.headI] at hk
    cases hg : getF t fk with
    | none =>
      cases hpg : protoGet t fk with
      | none =>
        have heq : insertIssue t [] fk m = (setF t fk (.arr [m] []), none) := by
          simp [insertIssue, hg, hpg]
        rw [heq]
        exact getF_setF_ne t fk k _ hk
      | some b =>
        have heq : insertIssue t [] fk m = (t, some JsError.typeError) := by
          simp [insertIssue, hg, hpg]
        rw [heq]
    | some c =>
      cases c with
      | obj gs =>
        have heq : insertIssue t [] fk m = (t, some JsError.typeError) := by
          simp [insertIssue, hg]
        rw [heq]
      | arr es gs =>
        have heq : insertIssue t [] fk m = (setF t fk (.arr (es ++ [m]) gs), none) := by
          simp [insertIssue, hg]
        rw [heq]
        exact getF_setF_ne t fk k _ hk
      | builtin n =>
        have heq : insertIssue t [] fk m = (t, some JsError.typeError) := by
          simp [insertIssue, hg]
        rw [heq]
  | cons a rest =>
    simp only [List.cons_append, List.headI] at hk
    cases hg : getF t a with
    | some child =>
      have heq : insertIssue t (a :: rest) fk m =
          (setF t a (insertIssue child rest fk m).1,
            (insertIssue child rest fk m).2) := by
        simp [insertIssue, hg]
      rw [heq]
      exact getF_setF_ne t a k _ hk
    | none =>
      cases hpg : protoGet t a with
      | some b =>
        have heq : insertIssue t (a :: rest) fk m =
            (t, (insertIssue b rest fk m).2) := by
          simp [insertIssue, hg, hpg]
        rw [heq]
      | none =>
        have heq : insertIssue t (a :: rest) fk m =
            (setF t a (insertIssue (.obj []) rest fk m).1,
              (insertIssue (.obj []) rest fk m).2) := by
          simp [insertIssue, hg, hpg]
        rw [heq]
        exact getF_setF_ne t a k _ hk

theorem insertIssue_obj (leading : List String) (fk m : String)
    (gs : List (String × JsVal)) :
    ∃ gs', (insertIssue (.obj gs) leading fk m).1 = .obj gs' := by
  cases leading with
  | nil =>
    cases hg : getF (JsVal.obj gs) fk with
    | none =>
      cases hpg : protoGet (JsVal.obj gs) fk with
      | none =>
        have heq : insertIssue (JsVal.obj gs) [] fk m =
            (setF (JsVal.obj gs) fk (.arr [m] []), none) := by
          simp [insertIssue, hg, hpg]
        rw [heq]
        exact ⟨_, rfl⟩
      | some b =>
        have heq : insertIssue (JsVal.obj gs) [] fk m =
            (JsVal.obj gs, some JsError.typeError) := by
          simp [insertIssue, hg, hpg]
        rw [heq]
        exact ⟨gs, rfl⟩
    | some c =>
      cases c with
      | obj gs₂ =>
        have heq : insertIssue (JsVal.obj gs) [] fk m =
            (JsVal.obj gs, some JsError.typeError) := by
          simp [insertIssue, hg]
        rw [heq]
        exact ⟨gs, rfl⟩
      | arr es gs₂ =>
        have heq : insertIssue (JsVal.obj gs) [] fk m =
            (setF (JsVal.obj gs) fk (.arr (es ++ [m]) gs₂), none) := by
          simp [insertIssue, hg]
        rw [heq]
        exact ⟨_, rfl⟩
      | builtin n =>
        have heq : insertIssue (JsVal.obj gs) [] fk m =
            (JsVal.obj gs, some JsError.typeError) := by
          simp [insertIssue, hg]
        rw [heq]
        exact ⟨gs, rfl⟩
  | cons a rest =>
    cases hg : getF (JsVal.obj gs) a with
    | some child =>
      have heq : insertIssue (JsVal.obj gs) (a :: rest) fk m =
          (setF (JsVal.obj gs) a (insertIssue child rest fk m).1,
            (insertIssue child rest fk m).2) := by
        simp [insertIssue, hg]
      rw [heq]
      exact ⟨_, rfl⟩
    | none =>
      cases hpg : protoGet (JsVal.obj gs) a with
      | some b =>
        have heq : insertIssue (JsVal.obj gs) (a :: rest) fk m =
            (JsVal.obj gs, (insertIssue b rest fk m).2) := by
          simp [insertIssue, hg, hpg]
        rw [heq]
        exact ⟨gs, rfl⟩
      | none =>
        have heq : insertIssue (JsVal.obj gs) (a :: rest) fk m =
            (setF (JsVal.obj gs) a (insertIssue (.obj []) rest fk m).1,
              (insertIssue (.obj []) rest fk m).2) := by
          simp [insertIssue, hg, hpg]
        rw [heq]
        exact ⟨_, rfl⟩

theorem keyPath_dropLast_append (P : List String) (hP : P ≠ []) :
    P.dropLast ++ [(P.getLast?).getD "undefined"] = P :=
  keyPath_of_ne_nil P hP

theorem processIssue_getF_ne (t : JsVal) (i : Issue) (k : String)
    (hk : ∀ ps, i.path = some ps → (keyPath ps).headI ≠ k) :
    getF (processIssue t i).1 k = getF t k := by
  cases hpath : i.path with
  | none => rw [processIssue_none t i hpath]
  | some ps =>
    rw [processIssue_some t i ps hpath]
    have hne : k ≠
        ((keyPath ps).dropLast ++ [((keyPath ps).getLast?).getD "undefined"]).headI := by
      rw [keyPath_dropLast_append (keyPath ps) (keyPath_ne_nil ps)]
      exact fun hh => (hk ps hpath) hh.symm
    exact insertIssue_top_ne (keyPath ps).dropLast t _ i.message k hne

theorem runIssues_getF (I : List Issue) : ∀ (t : JsVal) (k : String),
    (∀ i ∈ I, ∀ ps, i.path = some ps → (keyPath ps).headI ≠ k) →
    getF (runIssues t I).1 k = getF t k := by
  induction I with
  | nil => intro t k _; rfl
  | cons i rest ih =>
    intro t k hk
    cases hres : processIssue t i with
    | mk t' err =>
      have hpg : getF t' k = getF t k := by
        have hstep := processIssue_getF_ne t i k
          (fun ps hps => hk i (List.mem_cons_self i rest) ps hps)
        rw [hres] at hstep
        exact hstep
      cases err with
      | none =>
        have hrun : runIssues t (i :: rest) = runIssues t' rest := by
          simp [runIssues, hres]
        rw [hrun, ih t' k (fun j hj => hk j (List.mem_cons_of_mem i hj)), hpg]
      | some e =>
        have hrun : runIssues t (i :: rest) = (t', some e) := by
          simp [runIssues, hres]
        rw [hrun]
        exact hpg

theorem processIssue_obj (i : Issue) (gs : List (String × JsVal)) :
    ∃ gs', (processIssue (.obj gs) i).1 = .obj gs' := by
  cases hpath : i.path with
  | none =>
    rw [processIssue_none _ i hpath]
    exact ⟨gs, rfl⟩
  | some ps =>
    rw [processIssue_some _ i ps hpath]
    exact insertIssue_obj (keyPath ps).dropLast _ i.message gs

theorem runIssues_obj (I : List Issue) : ∀ gs : List (String × JsVal),
    ∃ gs', (runIssues (.obj gs) I).1 = .obj gs' := by
  induction I with
  | nil => intro gs; exact ⟨gs, rfl⟩
  | cons i rest ih =>
    intro gs
    obtain ⟨gs₂, hgs₂⟩ := processIssue_obj i gs
    cases hres : processIssue (.obj gs) i with
    | mk t' err =>
      rw [hres] at hgs₂
      cases err with
      | none =>
        have hrun : runIssues (.obj gs) (i :: rest) = runIssues t' rest := by
          simp [runIssues, hres]
        rw [hrun, show t' = JsVal.obj gs₂ from hgs₂]
        exact ih gs₂
      | some e =>
        have hrun : runIssues (.obj gs) (i :: rest) = (t', some e) := by
          simp [runIssues, hres]
        rw [hrun]
        exact ⟨gs₂, hgs₂⟩

theorem runIssues_all_none (I : List Issue) : ∀ t : JsVal,
    (∀ i ∈ I, i.path = none) → runIssues t I = (t, none) := by
  induction I with
  | nil => intro t _; rfl
  | cons i rest ih =>
    intro t h
    have hrun : runIssues t (i :: rest) = runIssues t rest := by
      simp [runIssues, processIssue_none t i (h i (List.mem_cons_self i rest))]
    rw [hrun]
    exact ih t (fun j hj => h j (List.mem_cons_of_mem i hj))

/-! ### validate on an object root -/

theorem validate_ok_pre (fs fs' : List (String × JsVal)) (r : ValidationResult) :
    validate (.obj fs) (.ok r) = validate (.obj fs') (.ok r) := by
  simp [validate, clearIssues_obj]

theorem validate_ok_some (fs : List (String × JsVal)) (issues : List Issue) :
    validate (.obj fs) (.ok ⟨some issues⟩) =
      match runIssues (.obj []) issues with
      | (t', none) => (.ok false, t')
      | (t', some e) => (.error e, t') := by
  simp [validate, clearIssues_obj]

theorem validate_ok_obj (fs : List (String × JsVal)) (r : ValidationResult) :
    ∃ gs, (validate (.obj fs) (.ok r)).2 = .obj gs := by
  cases hr : r.issues with
  | none =>
    refine ⟨[], ?_⟩
    cases r
    cases hr
    simp [validate, clearIssues_obj]
  | some issues =>
    cases r
    cases hr
    rw [validate_ok_some]
    obtain ⟨gs', hgs'⟩ := runIssues_obj issues []
    cases hrun : runIssues (.obj []) issues with
    | mk T err =>
      cases err with
      | none =>
        refine ⟨gs', ?_⟩
        simp only [hrun]
        rw [hrun] at hgs'
        exact hgs'
      | some e =>
        refine ⟨gs', ?_⟩
        simp only [hrun]
        rw [hrun] at hgs'
        exact hgs'

theorem entriesOf_cons_none (i : Issue) (rest : List Issue) (h : i.path = none) :
    entriesOf (i :: rest) = entriesOf rest := by
  simp [entriesOf, h]

theorem entriesOf_cons_some (i : Issue) (rest : List Issue) (ps : List String)
    (h : i.path = some ps) :
    entriesOf (i :: rest) = (keyPath ps, i.message) :: entriesOf rest := by
  simp [entriesOf, h]

theorem mem_presentPaths (issues : List Issue) (i : Issue) (hi : i ∈ issues)
    (ps : List String) (hip : i.path = some ps) : ps ∈ presentPaths issues := by
  simp only [presentPaths, List.mem_filterMap]
  exact ⟨i, hi, hip⟩

theorem entriesOf_no_proto (issues : List Issue) (h : noProtoKeysB issues = true) :
    ∀ e, e ∈ entriesOf issues → ∀ k, k ∈ e.1 → objProtoKeys.contains k = false := by
  intro e he k hk
  rcases (mem_entriesOf e issues).mp he with ⟨i, hi, ps, hps, rfl⟩
  have hmem : ps ∈ presentPaths issues := mem_presentPaths issues i hi ps hps
  have hall : usesProtoKey ps = false := by
    have hx := (List.all_eq_true.mp h) ps hmem
    simpa using hx
  have hps_all : ∀ x ∈ ps, objProtoKeys.contains x = false := by
    intro x hx
    cases hcx : objProtoKeys.contains x with
    | false => rfl
    | true =>
      have htrue : usesProtoKey ps = true := by
        simp only [usesProtoKey, List.any_eq_true]
        exact ⟨x, hx, hcx⟩
      rw [htrue] at hall
      exact Bool.noConfusion hall
  rcases Decidable.em (ps = []) with rfl | hne
  · simp only [keyPath_nil] at hk
    have hku : k = "undefined" := by simpa using hk
    subst hku
    decide
  · rw [keyPath_of_ne_nil ps hne] at hk
    exact hps_all k hk

/-- A completed conflict-free, prototype-clean `validate` run resolves to
`false` and leaves the tree modelled by the entry list of the reported
issues. -/
theorem validate_conflict_free (fs : List (String × JsVal)) (issues : List Issue)
    (h : noPrefixConflictB issues = true) (hpk : noProtoKeysB issues = true) :
    ∃ T, validate (.obj fs) (.ok ⟨some issues⟩) = (.ok false, T) ∧
      Models T (entriesOf issues) := by
  have hpair0 : List.Pairwise conflictFree (presentPaths issues) :=
    (noConflicts_iff (presentPaths issues)).mp h
  have hpairE := pairwise_entriesOf issues hpair0
  have hcross : ∀ e, e ∈ entriesOf issues → ∀ p, p ∈ pathsL ([] : List (List String × String)) →
      conflictFree p e.1 := by
    intro e _ p hp
    exact absurd hp (by simp [pathsL])
  obtain ⟨T, hrun, hMT⟩ := runIssues_models issues (.obj []) [] models_empty
    (entriesOf_no_proto issues hpk) hcross hpairE
  refine ⟨T, ?_, by simpa using hMT⟩
  rw [validate_ok_some, hrun]

/-- Under conflict-freedom, a present path whose effective key path coincides
with the non-empty path `ps` of another present issue is `ps` itself. -/
theorem keyPath_inj_of_conflict_free (issues : List Issue)
    (h : noPrefixConflictB issues = true) (i : Issue) (hi : i ∈ issues)
    (ps : List String) (hip : i.path = some ps) (hne : ps ≠ [])
    (j : Issue) (hj : j ∈ issues) (ps' : List String) (hjp : j.path = some ps')
    (hkp : keyPath ps' = ps) : ps' = ps := by
  by_cases hp' : ps' = []
  · subst hp'
    have hps_mem : ps ∈ presentPaths issues := mem_presentPaths issues i hi ps hip
    have hnil_mem : ([] : List String) ∈ presentPaths issues :=
      mem_presentPaths issues j hj [] hjp
    have hpw : List.Pairwise conflictFree (presentPaths issues) :=
      (noConflicts_iff (presentPaths issues)).mp h
    have hsym : Symmetric conflictFree := fun a b hab => ⟨hab.2, hab.1⟩
    have hcf : conflictFree [] ps :=
      hpw.forall hsym hnil_mem hps_mem (fun hh => hne hh.symm)
    exact absurd (properLead_nil_left ps hne) (by simp [hcf.1])
  · rw [keyPath_of_ne_nil ps' hp'] at hkp
    exact hkp

/-- With no effective-key-path collisions onto `ps`, the stored message list at
`ps` is exactly the messages of the issues whose path equals `ps`, in order. -/
theorem msgsAt_entriesOf (issues : List Issue) (ps : List String) (hne : ps ≠ [])
    (huniq : ∀ j ∈ issues, ∀ ps', j.path = some ps' → keyPath ps' = ps → ps' = ps) :
    msgsAt ps (entriesOf issues) =
      (issues.filter (fun j => j.path == some ps)).map Issue.message := by
  induction issues with
  | nil => rfl
  | cons j rest ih =>
    have huniq' : ∀ j' ∈ rest, ∀ ps', j'.path = some ps' → keyPath ps' = ps → ps' = ps :=
      fun j' hj' => huniq j' (List.mem_cons_of_mem j hj')
    cases hpath : j.path with
    | none =>
      rw [entriesOf_cons_none j rest hpath]
      have hfj : (j.path == some ps) = false := by
        rw [hpath]
        rfl
      rw [List.filter_cons, hfj]
      simp only [Bool.false_eq_true, if_false]
      exact ih huniq'
    | some ps' =>
      rw [entriesOf_cons_some j rest ps' hpath]
      by_cases hkp : keyPath ps' = ps
      · have hpp : ps' = ps := huniq j (List.mem_cons_self j rest) ps' hpath hkp
        subst hpp
        have h1 : ((keyPath ps', j.message).1 == ps') = true := by
          rw [show (keyPath ps', j.message).1 = keyPath ps' from rfl, hkp]
          exact beq_self_eq_true ps'
        have h2 : (j.path == some ps') = true := by
          rw [hpath]
          exact beq_self_eq_true _
        rw [msgsAt, List.filter_cons, h1, List.filter_cons, h2]
        simp only [if_true, List.map_cons]
        show j.message :: msgsAt ps' (entriesOf rest) =
          j.message :: List.map Issue.message (List.filter (fun j => j.path == some ps') rest)
        rw [ih huniq']
      · have hps' : ps' ≠ ps := fun hh => hkp (by rw [hh, keyPath_of_ne_nil ps hne])
        have h1 : ((keyPath ps', j.message).1 == ps) = false := by
          simp [hkp]
        have h2 : (j.path == some ps) = false := by
          rw [hpath]
          simp [hps']
        rw [msgsAt, List.filter_cons, h1, List.filter_cons, h2]
        simp only [Bool.false_eq_true, if_false]
        show msgsAt ps (entriesOf rest) =
          List.map Issue.message (List.filter (fun j => j.path == some ps) rest)
        exact ih huniq'

/-! ### Claim theorems -/

/-- C1 counterexample: as stated over every validation result the claim fails.
With issues `["a"] ↦ "m1"` then `["a","b"] ↦ "m2"`, the walk for the second
issue reuses the array stored at `a`, so the tree holds that field's issues
inside an array node: the proper prefix `["a"]` of the issue path `["a","b"]`
does not hold an intermediate mapping node. -/
theorem C1_counterexample :
    (validate (.obj [])
        (.ok ⟨some [⟨some ["a"], "m1"⟩, ⟨some ["a", "b"], "m2"⟩]⟩)).2 =
      .obj [("a", .arr ["m1"] [("b", .arr ["m2"] [])])] ∧
    ¬ ∃ gs, lookupPath (validate (.obj [])
        (.ok ⟨some [⟨some ["a"], "m1"⟩, ⟨some ["a", "b"], "m2"⟩]⟩)).2
      ["a"] = some (.obj gs) := by
  refine ⟨rfl, ?_⟩
  rintro ⟨gs, hgs⟩
  have heval : lookupPath (validate (.obj [])
      (.ok ⟨some [⟨some ["a"], "m1"⟩, ⟨some ["a", "b"], "m2"⟩]⟩)).2
      ["a"] = some (.arr ["m1"] [("b", .arr ["m2"] [])]) := rfl
  rw [heval] at hgs
  simp at hgs

/-- C1 (amended with the precondition that no present issue path is a strict
leading segment of another present issue path and that no segment of a
present path names a property a plain object inherits from
`Object.prototype`): for every issue with a non-empty path, `validate`
completes with `false`, the resulting tree holds an intermediate mapping node
at every non-empty proper prefix of the issue path, and the leaf sequence at
the full path holds exactly that field's messages in the order the validator
produced them. -/
theorem C1_tree_structure (fs : List (String × JsVal)) (issues : List Issue)
    (hconf : noPrefixConflictB issues = true)
    (hproto : noProtoKeysB issues = true) :
    (validate (.obj fs) (.ok ⟨some issues⟩)).1 = .ok false ∧
    ∀ i ∈ issues, ∀ ps, i.path = some ps → ps ≠ [] →
      (∀ q, q ≠ [] → properLead q ps = true →
        ∃ gs, lookupPath (validate (.obj fs) (.ok ⟨some issues⟩)).2 q =
          some (.obj gs)) ∧
      lookupPath (validate (.obj fs) (.ok ⟨some issues⟩)).2 ps =
        some (.arr ((issues.filter (fun j => j.path == some ps)).map Issue.message) []) := by
  obtain ⟨T, hT, hM⟩ := validate_conflict_free fs issues hconf hproto
  refine ⟨by rw [hT], ?_⟩
  intro i hi ps hps hne
  have hkp : keyPath ps = ps := keyPath_of_ne_nil ps hne
  have hmemE : (ps, i.message) ∈ entriesOf issues := by
    rw [mem_entriesOf]
    exact ⟨i, hi, ps, hps, by rw [hkp]⟩
  have hmemP : ps ∈ pathsL (entriesOf issues) := by
    have hm := List.mem_map_of_mem Prod.fst hmemE
    simpa [pathsL] using hm
  constructor
  · intro q hq hpl
    rw [hT]
    exact hM.inner q hq ⟨ps, hmemP, hpl⟩
  · rw [hT]
    have hleaf := hM.leaf ps hmemP
    have huniq : ∀ j ∈ issues, ∀ ps', j.path = some ps' → keyPath ps' = ps → ps' = ps :=
      fun j hj ps' hjp hk =>
        keyPath_inj_of_conflict_free issues hconf i hi ps hps hne j hj ps' hjp hk
    rw [msgsAt_entriesOf issues ps hne huniq] at hleaf
    exact hleaf

/-- witness for C1_tree_structure at a concrete nested path -/
theorem C1_tree_structure_witness :
    lookupPath (validate (.obj [])
        (.ok ⟨some [⟨some ["user", "address", "street"], "bad"⟩]⟩)).2
      ["user", "address", "street"] = some (.arr ["bad"] []) ∧
    ∃ gs, lookupPath (validate (.obj [])
        (.ok ⟨some [⟨some ["user", "address", "street"], "bad"⟩]⟩)).2
      ["user"] = some (.obj gs) := by
  have h := C1_tree_structure [] [⟨some ["user", "address", "street"], "bad"⟩]
    (by decide) (by decide)
  have h2 := h.2 ⟨some ["user", "address", "street"], "bad"⟩ (by simp)
    ["user", "address", "street"] rfl (by simp)
  exact ⟨h2.2, h2.1 ["user"] (by simp) (by decide)⟩

/-- C2: when the validator reports success (`issues` absent), `validate`
resolves to `true` and the issue tree is empty afterward. -/
theorem C2_success_true_and_empty (fs : List (String × JsVal)) :
    validate (.obj fs) (.ok ⟨none⟩) = (.ok true, .obj []) := by
  simp [validate, clearIssues_obj]

/-- C3: a completed `validate` run fully replaces prior content: its outcome
is independent of the tree it starts from, and a top-level key not named by
any of the latest run's effective issue paths is absent afterward, not present
with an empty sequence. -/
theorem C3_full_replacement (fs fs' : List (String × JsVal)) (r : ValidationResult) :
    validate (.obj fs) (.ok r) = validate (.obj fs') (.ok r) ∧
    (∀ b T k, validate (.obj fs) (.ok r) = (.ok b, T) →
      (∀ i ∈ r.issues.getD [], ∀ ps, i.path = some ps → (keyPath ps).headI ≠ k) →
      getF T k = none) := by
  refine ⟨validate_ok_pre fs fs' r, ?_⟩
  intro b T k hval hk
  obtain ⟨ri⟩ := r
  cases ri with
  | none =>
    have heq : validate (.obj fs) (.ok ⟨none⟩) = (.ok true, .obj []) := by
      simp [validate, clearIssues_obj]
    rw [heq] at hval
    injection hval with h1 h2
    rw [← h2]
    rfl
  | some issues =>
    rw [validate_ok_some] at hval
    cases hrun : runIssues (.obj []) issues with
    | mk T' err =>
      rw [hrun] at hval
      cases err with
      | some e => simp at hval
      | none =>
        injection hval with h1 h2
        rw [← h2]
        have hk' : ∀ i ∈ issues, ∀ ps, i.path = some ps → (keyPath ps).headI ≠ k := by
          simpa using hk
        have hg := runIssues_getF issues (.obj []) k hk'
        rw [hrun] at hg
        exact hg

/-- witness for C3_full_replacement: a stale key from an earlier run vanishes -/
theorem C3_full_replacement_witness :
    getF (.obj [("fresh", .arr ["m"] [])]) "stale" = none := by
  have h := (C3_full_replacement [("stale", .arr ["old"] [])] []
      ⟨some [⟨some ["fresh"], "m"⟩]⟩).2
    false (.obj [("fresh", .arr ["m"] [])]) "stale" rfl
  apply h
  intro i hi ps hps
  have hieq : i = ⟨some ["fresh"], "m"⟩ := by simpa using hi
  rw [hieq] at hps
  have hpseq : ps = ["fresh"] := by
    injection hps with hh
    exact hh.symm
  rw [hpseq]
  decide

/-- C4 counterexample: an issue with a present but empty path is not skipped.
An empty array is truthy in JavaScript, so `if (!path) continue` lets it
through, and `String(path.at(-1))` files its message under the top-level key
`"undefined"`: the issue tree is not left empty. -/
theorem C4_counterexample :
    validate (.obj []) (.ok ⟨some [⟨some [], "m"⟩]⟩) =
      (.ok false, .obj [("undefined", .arr ["m"] [])]) ∧
    (validate (.obj []) (.ok ⟨some [⟨some [], "m"⟩]⟩)).2 ≠ .obj [] := by
  refine ⟨rfl, ?_⟩
  show JsVal.obj [("undefined", JsVal.arr ["m"] [])] ≠ JsVal.obj []
  simp

/-- C4 (amended to absent paths only): an issue whose path is absent is
skipped entirely and contributes nothing, and a validator returning only
absent-path issues makes `validate` resolve to `false` with an empty tree. -/
theorem C4_absent_paths_dropped (fs : List (String × JsVal)) (issues : List Issue)
    (h : ∀ i ∈ issues, i.path = none) :
    (∀ t i, i.path = none → processIssue t i = (t, none)) ∧
    validate (.obj fs) (.ok ⟨some issues⟩) = (.ok false, .obj []) := by
  refine ⟨fun t i hi => processIssue_none t i hi, ?_⟩
  rw [validate_ok_some, runIssues_all_none issues (.obj []) h]

/-- witness for C4_absent_paths_dropped -/
theorem C4_absent_paths_dropped_witness :
    validate (.obj []) (.ok ⟨some [⟨none, "global"⟩]⟩) = (.ok false, .obj []) :=
  (C4_absent_paths_dropped [] [⟨none, "global"⟩] (by decide)).2

/-- C5: a data-change notification triggers `validate` exactly when the issue
tree currently has a top-level key, and on the empty tree (the state before
any `validate` call has populated it) the validator is not invoked and the
tree stays empty. -/
theorem C5_revalidation_gate (t : JsVal) (vres : Except String ValidationResult) :
    ((onDataChange t vres).1.isSome = true ↔ objKeys t ≠ []) ∧
    onDataChange (.obj []) vres = (none, .obj []) := by
  constructor
  · simp only [onDataChange]
    by_cases h : (objKeys t).length ≠ 0
    · rw [if_pos h]
      simp only [Option.isSome_some, true_iff]
      intro hnil
      rw [hnil] at h
      exact h rfl
    · rw [if_neg h]
      simp only [Option.isSome_none, Bool.false_eq_true, false_iff, ne_eq, not_not]
      exact List.length_eq_zero.mp (not_not.mp h)
  · rfl

/-- C6: `clearIssues` resets the issue tree to fully empty (zero top-level
keys, hence no reachable nested content), and it is idempotent: clearing an
already-cleared tree is a no-op. -/
theorem C6_clearIssues_resets (fs : List (String × JsVal)) :
    clearIssues (.obj fs) = .obj [] ∧
      clearIssues (clearIssues (.obj fs)) = clearIssues (.obj fs) := by
  refine ⟨clearIssues_obj fs, ?_⟩
  rw [clearIssues_obj fs]
  exact clearIssues_obj []

/-- C7: when the validator itself rejects, that failure propagates to the
caller of `validate` with its payload unchanged — no catch, retry, wrapping
or fallback. -/
theorem C7_validator_failure_propagates (t : JsVal) (e : String) :
    (validate t (.error e)).1 = .error (.validatorError e) := rfl

/-- C8: `validate` is idempotent in effect: running it again on the tree a
previous run with the same validator outcome produced yields the same boolean
outcome and the identical tree. -/
theorem C8_idempotent (fs : List (String × JsVal))
    (vres : Except String ValidationResult) :
    validate ((validate (.obj fs) vres).2) vres = validate (.obj fs) vres := by
  cases vres with
  | error e => rfl
  | ok r =>
    obtain ⟨gs, hgs⟩ := validate_ok_obj fs r
    rw [hgs]
    exact validate_ok_pre gs fs r

/-- C9: when the validator rejects, the issue tree is left exactly as it was
before the `validate` call: clearing runs only after the validator's result
resolves. -/
theorem C9_rejection_preserves_tree (t : JsVal) (e : String) :
    (validate t (.error e)).2 = t := rfl

/-- C10 counterexample: the claimed no-throw precondition is not sufficient.
The single-issue result with path `["toString"]` has no proper-prefix
conflict, yet `validate` throws: `issues["toString"] ??= []` reads the
inherited `Object.prototype.toString` function (non-nullish, so `??=` keeps
it) and `.push` on it is a `TypeError`, so `validate` does not resolve to a
boolean. -/
theorem C10_counterexample :
    noPrefixConflictB [⟨some ["toString"], "m"⟩] = true ∧
    (validate (.obj []) (.ok ⟨some [⟨some ["toString"], "m"⟩]⟩)).1 =
      .error .typeError := by
  exact ⟨rfl, rfl⟩

/-- C10 (amended): `validate` never throws of its own under the precondition
that no present issue path is a strict leading segment of another present
issue path and that no segment of a present path names a property inherited
from `Object.prototype`; on results violating either part it throws a
`TypeError` instead of recording the issue — `["a","b"]` processed before
`["a"]` reuses the existing mapping node at `["a"]` as the leaf sequence, and
`["toString"]` reuses the inherited `Object.prototype.toString` as the leaf
sequence. -/
theorem C10_throw_conditions :
    (∀ (fs : List (String × JsVal)) (issues : List Issue),
        noPrefixConflictB issues = true → noProtoKeysB issues = true →
        ∃ b, (validate (.obj fs) (.ok ⟨some issues⟩)).1 = .ok b) ∧
    (validate (.obj [])
        (.ok ⟨some [⟨some ["a", "b"], "m1"⟩, ⟨some ["a"], "m2"⟩]⟩)).1 =
      .error .typeError ∧
    (validate (.obj []) (.ok ⟨some [⟨some ["toString"], "m"⟩]⟩)).1 =
      .error .typeError := by
  refine ⟨?_, rfl, rfl⟩
  intro fs issues h hpk
  obtain ⟨T, hT, _⟩ := validate_conflict_free fs issues h hpk
  exact ⟨false, by rw [hT]⟩

/-- witness for C10_throw_conditions on a conflict-free, prototype-clean
result -/
theorem C10_throw_conditions_witness :
    ∃ b, (validate (.obj [])
      (.ok ⟨some [⟨some ["a"], "m1"⟩, ⟨some ["b", "c"], "m2"⟩]⟩)).1 = .ok b :=
  C10_throw_conditions.1 [] [⟨some ["a"], "m1"⟩, ⟨some ["b", "c"], "m2"⟩]
    (by decide) (by decide)
